import Mathlib

/-!
Shallow embedding of the iSAM 2D SLAM factor library (`include/isam/slam2d.h`)
and proofs about it.

The repository sources shown are `include/isam/slam2d.h` and the documentation
header `include/isam/isam.h`.  The manifold value types (`Pose2d`, `Point2d`),
the angle normalization `standardRad`, the generic `Factor`/`Node` layer and
the optimization engine (`Slam`) live in files that are not among the shown
sources; where a definition below embeds one of those, its doc comment starts
with `Modelled from the spec:` and it follows the specification's words,
pinned down wherever possible by the formulas that `slam2d.h` itself contains
(its symbolic Jacobians spell out the component formulas of `ominus` and
`transform_to`).

Real scalars model the C++ `double` computations in exact real arithmetic;
angles are radians.
-/

namespace Isam

open Real Filter Topology

/-- Modelled from the spec: `standardRad` (from `util.h`, not among the shown
sources) normalizes an angle into (−π, π]: it returns the representative of
`t` modulo 2π lying in that interval. -/
noncomputable def standardRad (t : ℝ) : ℝ := t - 2 * π * ⌈(t - π) / (2 * π)⌉

/-- Modelled from the spec: 2D point value type (`Point2d.h`): fields `x`, `y`. -/
structure Point2d where
  x : ℝ
  y : ℝ

/-- Modelled from the spec: 2D pose value type (`Pose2d.h`): fields `x`, `y`
and heading `t`. -/
structure Pose2d where
  x : ℝ
  y : ℝ
  t : ℝ

/-- `Point2d::vector()`: flatten to a 2-vector. -/
def Point2d.vector (p : Point2d) : Fin 2 → ℝ := ![p.x, p.y]

/-- `Point2d(Vector)`: constructor from a 2-vector. -/
def Point2d.ofVector (v : Fin 2 → ℝ) : Point2d := ⟨v 0, v 1⟩

/-- `Pose2d::vector()`: flatten to a 3-vector `(x, y, t)`. -/
def Pose2d.vector (p : Pose2d) : Fin 3 → ℝ := ![p.x, p.y, p.t]

/-- `Pose2d(Vector)`: constructor from a 3-vector. -/
def Pose2d.ofVector (v : Fin 3 → ℝ) : Pose2d := ⟨v 0, v 1, v 2⟩

/-- Modelled from the spec: `Pose2d::oplus` — compose a pose with a relative
pose expressed in the pose's own frame; the resulting angle is normalized. -/
noncomputable def Pose2d.oplus (a d : Pose2d) : Pose2d :=
  ⟨a.x + cos a.t * d.x - sin a.t * d.y,
   a.y + sin a.t * d.x + cos a.t * d.y,
   standardRad (a.t + d.t)⟩

/-- Modelled from the spec: `Pose2d::ominus` — inverse composition: the
receiver expressed relative to the frame of `b` (so `b.oplus (a.ominus b) = a`
up to angle normalization).  The component formulas are the ones the symbolic
Jacobian of `Pose2d_Pose2d_Factor` in `slam2d.h` differentiates. -/
noncomputable def Pose2d.ominus (a b : Pose2d) : Pose2d :=
  ⟨cos b.t * (a.x - b.x) + sin b.t * (a.y - b.y),
   -sin b.t * (a.x - b.x) + cos b.t * (a.y - b.y),
   standardRad (a.t - b.t)⟩

/-- Modelled from the spec: `Pose2d::transform_to` — map a world point into the
pose-local frame.  The component formulas are the ones the symbolic Jacobian of
`Pose2d_Point2d_Factor` in `slam2d.h` spells out (`x = c*dx + s*dy`,
`y = -s*dx + c*dy`). -/
noncomputable def Pose2d.transform_to (p : Pose2d) (q : Point2d) : Point2d :=
  ⟨cos p.t * (q.x - p.x) + sin p.t * (q.y - p.y),
   -sin p.t * (q.x - p.x) + cos p.t * (q.y - p.y)⟩

/-- Modelled from the spec: `Pose2d::transform_from` — map a pose-local point
to the world frame; mutual inverse of `transform_to`. -/
noncomputable def Pose2d.transform_from (p : Pose2d) (q : Point2d) : Point2d :=
  ⟨p.x + cos p.t * q.x - sin p.t * q.y,
   p.y + sin p.t * q.x + cos p.t * q.y⟩

/-- The fatal precondition failures raised via `require` in `slam2d.h`
(modelled from the spec's error taxonomy: such a failure aborts the call). -/
inductive SlamError where
  | uninitializedNode
  | anchorMismatch
  | nonSquare
deriving DecidableEq, Repr

/-- `Pose2d_Factor::basic_error`: `err = vec[0] - prior.vector()` with
`err(2) = standardRad(err(2))`. -/
noncomputable def pfBasicError (prior : Pose2d) (v : Fin 3 → ℝ) : Fin 3 → ℝ :=
  Function.update (v - prior.vector) 2 (standardRad ((v - prior.vector) 2))

/-- `Pose2d_Pose2d_Factor::basic_error`: the predicted relative pose is
`(anchor2 ⊕ p2) ⊖ (anchor1 ⊕ p1)` when the supplied value list has size 4 and
`p2 ⊖ p1` otherwise; the angular residual component is normalized. -/
noncomputable def ppBasicError (measure : Pose2d) (vec : List (Fin 3 → ℝ)) : Fin 3 → ℝ :=
  let p1 := Pose2d.ofVector (vec.getD 0 0)
  let p2 := Pose2d.ofVector (vec.getD 1 0)
  let predicted : Pose2d :=
    if vec.length = 4 then
      let anchor1 := Pose2d.ofVector (vec.getD 2 0)
      let anchor2 := Pose2d.ofVector (vec.getD 3 0)
      (anchor2.oplus p2).ominus (anchor1.oplus p1)
    else
      p2.ominus p1
  Function.update (predicted.vector - measure.vector) 2
    (standardRad ((predicted.vector - measure.vector) 2))

/-- `Pose2d_Point2d_Factor::basic_error`: predicted landmark observation
`po.transform_to(pt)` minus the measurement (no angular component). -/
noncomputable def ptBasicError (measure : Point2d) (v0 : Fin 3 → ℝ) (v1 : Fin 2 → ℝ) :
    Fin 2 → ℝ :=
  ((Pose2d.ofVector v0).transform_to (Point2d.ofVector v1)).vector - measure.vector

/-- `Pose2d_Factor::jacobian`: weighted residual and the single weighted term
`M = _sqrtinf` ("derivatives are all 1 (eye)").  `v0` is the node's
linearization-point vector `vector0()`. -/
noncomputable def pfJacobian (sqrtinf : Matrix (Fin 3) (Fin 3) ℝ) (prior : Pose2d)
    (v0 : Fin 3 → ℝ) : (Fin 3 → ℝ) × Matrix (Fin 3) (Fin 3) ℝ :=
  let M := sqrtinf
  let err := Function.update (v0 - prior.vector) 2 (standardRad ((v0 - prior.vector) 2))
  (sqrtinf.mulVec err, M)

/-- The unweighted derivative block of `Pose2d_Pose2d_Factor::jacobian` with
respect to `pose1` (the matrix `make_Matrix(3,3, -c,-s,p.y, s,-c,-p.x, 0,0,-1)`
before multiplication by `_sqrtinf`). -/
noncomputable def ppD1 (p1 p2 : Pose2d) : Matrix (Fin 3) (Fin 3) ℝ :=
  let p := p2.ominus p1
  !![-cos p1.t, -sin p1.t, p.y; sin p1.t, -cos p1.t, -p.x; 0, 0, -1]

/-- The unweighted derivative block of `Pose2d_Pose2d_Factor::jacobian` with
respect to `pose2`. -/
noncomputable def ppD2 (p1 : Pose2d) : Matrix (Fin 3) (Fin 3) ℝ :=
  !![cos p1.t, sin p1.t, 0; -sin p1.t, cos p1.t, 0; 0, 0, 1]

/-- `Pose2d_Pose2d_Factor::jacobian`, symbolic branch (taken when the factor
has no anchor nodes).  `p1`, `p2` are the linearization points `value0()` of
the two pose nodes. -/
noncomputable def ppJacobian (sqrtinf : Matrix (Fin 3) (Fin 3) ℝ) (measure : Pose2d)
    (p1 p2 : Pose2d) :
    (Fin 3 → ℝ) × Matrix (Fin 3) (Fin 3) ℝ × Matrix (Fin 3) (Fin 3) ℝ :=
  let p := p2.ominus p1
  let M1 := sqrtinf * ppD1 p1 p2
  let M2 := sqrtinf * ppD2 p1
  let err := Function.update (p.vector - measure.vector) 2
    (standardRad ((p.vector - measure.vector) 2))
  (sqrtinf.mulVec err, M1, M2)

/-- The unweighted derivative block of `Pose2d_Point2d_Factor::jacobian` with
respect to the pose node. -/
noncomputable def ptD1 (po : Pose2d) (pt : Point2d) : Matrix (Fin 2) (Fin 3) ℝ :=
  let c := cos po.t
  let s := sin po.t
  let dx := pt.x - po.x
  let dy := pt.y - po.y
  !![-c, -s, -s * dx + c * dy; s, -c, -(c * dx + s * dy)]

/-- The unweighted derivative block of `Pose2d_Point2d_Factor::jacobian` with
respect to the point node. -/
noncomputable def ptD2 (po : Pose2d) : Matrix (Fin 2) (Fin 2) ℝ :=
  !![cos po.t, sin po.t; -sin po.t, cos po.t]

/-- `Pose2d_Point2d_Factor::jacobian`.  `po`, `pt` are the linearization
points `value0()` of the pose and point nodes. -/
noncomputable def ptJacobian (sqrtinf : Matrix (Fin 2) (Fin 2) ℝ) (measure : Point2d)
    (po : Pose2d) (pt : Point2d) :
    (Fin 2 → ℝ) × Matrix (Fin 2) (Fin 3) ℝ × Matrix (Fin 2) (Fin 2) ℝ :=
  let c := cos po.t
  let s := sin po.t
  let dx := pt.x - po.x
  let dy := pt.y - po.y
  let x := c * dx + s * dy
  let y := -s * dx + c * dy
  let M1 := sqrtinf * ptD1 po pt
  let M2 := sqrtinf * ptD2 po
  let r := sqrtinf.mulVec ((Point2d.mk x y).vector - measure.vector)
  (r, M1, M2)

/-- `D` is the matrix of partial derivatives of the residual map `F` at `v`:
entry `(i, j)` is the derivative of residual component `i` with respect to
coordinate `j` of the input. -/
def HasPartials {n m : ℕ} (F : (Fin n → ℝ) → Fin m → ℝ)
    (D : Matrix (Fin m) (Fin n) ℝ) (v : Fin n → ℝ) : Prop :=
  ∀ (i : Fin m) (j : Fin n),
    HasDerivAt (fun s => F (Function.update v j s) i) (D i j) (v j)

/-- Modelled from the spec: the generic numerical-differentiation fallback of
`Factor::jacobian` (not among the shown sources) perturbs each coordinate of a
node's tangent-space vector and finite-differences `basic_error`.  `FDClose`
states that those finite-difference quotients match the entries of `D` within
any positive tolerance once the perturbation is small enough. -/
def FDClose {n m : ℕ} (F : (Fin n → ℝ) → Fin m → ℝ)
    (D : Matrix (Fin m) (Fin n) ℝ) (v : Fin n → ℝ) : Prop :=
  ∀ tol : ℝ, 0 < tol → ∀ (i : Fin m) (j : Fin n),
    ∀ᶠ h in 𝓝[≠] (0 : ℝ),
      |(F (Function.update v j (v j + h)) i - F v i) / h - D i j| < tol

/-- `Pose2d_Pose2d_Factor::initialize`.  Node values are `Option Pose2d`
(`none` = uninitialized); `anchored` is `_nodes.size()==4`.  A failed
`require` (modelled from the spec: fatal, aborts the call) stops execution and
returns the node values as they stand at that moment. -/
noncomputable def ppInit (measure : Pose2d) (anchored : Bool)
    (pose1 pose2 anchor1 anchor2 : Option Pose2d) :
    Option SlamError × (Option Pose2d × Option Pose2d × Option Pose2d × Option Pose2d) :=
  match pose1 with
  | none => (some .uninitializedNode, (pose1, pose2, anchor1, anchor2))
  | some a =>
    let b : Pose2d := match pose2 with | none => a.oplus measure | some v => v
    if anchored then
      match anchor1 with
      | none => (some .uninitializedNode, (some a, some b, anchor1, anchor2))
      | some b1 =>
        let d : Pose2d := match anchor2 with
          | none => measure.ominus (b.ominus (b1.oplus a))
          | some v => v
        (none, (some a, some b, some b1, some d))
    else
      (none, (some a, some b, anchor1, anchor2))

/-- `Pose2d_Point2d_Factor::initialize`: requires the pose node initialized;
initializes an uninitialized point node via `transform_from`. -/
noncomputable def ptInit (measure : Point2d) (pose : Option Pose2d) (point : Option Point2d) :
    Option SlamError × (Option Pose2d × Option Point2d) :=
  match pose with
  | none => (some .uninitializedNode, (pose, point))
  | some p =>
    let q : Point2d := match point with | none => p.transform_from measure | some v => v
    (none, (some p, some q))

/-- `Pose2d_Pose2d_Factor` constructor: `require` either 0 or 2 anchor nodes;
the resulting `_nodes` list is `[pose1, pose2]` or
`[pose1, pose2, anchor1, anchor2]`.  Nodes are identified by their ids. -/
def ppCtor (pose1 pose2 : ℕ) : Option ℕ → Option ℕ → Except SlamError (List ℕ)
  | none, none => .ok [pose1, pose2]
  | some a1, some a2 => .ok [pose1, pose2, a1, a2]
  | _, _ => .error .anchorMismatch

/-- A comma-separated join (the format the `sqrtinf_to_string` loop produces
between its braces). -/
def joinComma : List String → String
  | [] => ""
  | [e] => e
  | e :: es => e ++ "," ++ joinComma es

/-- The flattened upper-triangular traversal of `sqrtinf_to_string`:
`for r in [0,nr)`, `for c in [r,nc)`. -/
def utList (nr nc : ℕ) (ent : ℕ → ℕ → String) : List String :=
  (List.range nr).flatMap fun r => (List.range' r (nc - r)).map (ent r)

/-- `sqrtinf_to_string`: requires a square matrix, then streams `{`, the
entries `(r, c)` for `c ≥ r` in row-major order separated by commas (via a
`first`-entry flag), and `}`.  `fmt` renders one scalar the way `operator<<`
renders a `double`. -/
def sqrtinfToString (fmt : ℝ → String) (nr nc : ℕ) (ent : ℕ → ℕ → ℝ) :
    Except SlamError String :=
  if nr = nc then
    .ok ((((utList nr nc fun r c => fmt (ent r c)).foldl
      (fun a e => (a.1 ++ (if a.2 then e else "," ++ e), false)) ("\x7b", true)).1) ++ "\x7d")
  else
    .error .nonSquare

/-- Modelled from the spec: `Factor::write` (not among the shown sources)
produces the leading `<FactorTypeName> <node-id(s)>` of the line format, where
`<node-id(s)>` are the ids of the factor's measurement nodes (the spec's line
format places anchor ids only in the trailing optional slot). -/
def writeBase (name : String) (ids : List ℕ) : String :=
  name ++ String.join (ids.map fun i => " " ++ toString i)

/-- Modelled from the spec: the `<value-fields>` of a `Pose2d` measurement or
prior: its fields in order. -/
def poseFields (fmt : ℝ → String) (p : Pose2d) : String :=
  fmt p.x ++ " " ++ fmt p.y ++ " " ++ fmt p.t

/-- Modelled from the spec: the `<value-fields>` of a `Point2d` measurement or
prior. -/
def pointFields (fmt : ℝ → String) (p : Point2d) : String :=
  fmt p.x ++ " " ++ fmt p.y

/-- `Pose2d_Factor::write`: base output, prior fields, 3×3 weight matrix. -/
def pfWrite (fmt : ℝ → String) (id0 : ℕ) (prior : Pose2d) (ent : ℕ → ℕ → ℝ) :
    Except SlamError String :=
  (sqrtinfToString fmt 3 3 ent).map fun str =>
    writeBase "Pose2d_Factor" [id0] ++ " " ++ poseFields fmt prior ++ " " ++ str

/-- `Point2d_Factor::write`: base output, prior fields, 2×2 weight matrix. -/
def pointPriorWrite (fmt : ℝ → String) (id0 : ℕ) (prior : Point2d) (ent : ℕ → ℕ → ℝ) :
    Except SlamError String :=
  (sqrtinfToString fmt 2 2 ent).map fun str =>
    writeBase "Point2d_Factor" [id0] ++ " " ++ pointFields fmt prior ++ " " ++ str

/-- `Pose2d_Pose2d_Factor::write`: base output, measurement fields, 3×3 weight
matrix, and the two anchor ids exactly when `_nodes.size()==4`. -/
def ppWrite (fmt : ℝ → String) (nodes : List ℕ) (measure : Pose2d) (ent : ℕ → ℕ → ℝ) :
    Except SlamError String :=
  (sqrtinfToString fmt 3 3 ent).map fun str =>
    writeBase "Pose2d_Pose2d_Factor" (nodes.take 2) ++ " " ++ poseFields fmt measure ++
      " " ++ str ++
      (if nodes.length = 4 then
        " " ++ toString (nodes.getD 2 0) ++ " " ++ toString (nodes.getD 3 0)
      else "")

/-- `Pose2d_Point2d_Factor::write`: base output, measurement fields, 2×2
weight matrix. -/
def ptWrite (fmt : ℝ → String) (poseId pointId : ℕ) (measure : Point2d) (ent : ℕ → ℕ → ℝ) :
    Except SlamError String :=
  (sqrtinfToString fmt 2 2 ent).map fun str =>
    writeBase "Pose2d_Point2d_Factor" [poseId, pointId] ++ " " ++
      pointFields fmt measure ++ " " ++ str

/-- The graph held by the optimization engine: the accumulated factor set and
the current node estimates. -/
structure GraphState (F E : Type) where
  factors : List F
  estimates : E

/-- Modelled from the spec: the optimization engine (`Slam`, not among the
shown sources).  `optimum` is the exact least-squares optimum determined by
the current factor set (the spec: `batch_optimize` is "the only path
guaranteed to reach the exact least-squares optimum for the current factor
set"); `initNodes` and `incrUpdate` are the estimate updates performed by the
incremental `add` path (node initialization from the factor's prediction,
incremental factorization/solve, delta application). -/
structure Engine (F E : Type) where
  initNodes : F → E → E
  incrUpdate : F → E → E
  optimum : List F → E

/-- Modelled from the spec: `Slam::add` — initializes the factor's new nodes,
linearizes, inserts rows, incrementally factorizes, solves and applies the
delta; the factor is appended to the graph's factor set. -/
def Engine.add {F E : Type} (eng : Engine F E) (s : GraphState F E) (f : F) :
    GraphState F E :=
  { factors := s.factors ++ [f]
    estimates := eng.incrUpdate f (eng.initNodes f s.estimates) }

/-- Modelled from the spec: `Slam::batch_optimize` — relinearizes every factor,
rebuilds and reorders the sparse system, and iterates Gauss-Newton to the
exact least-squares optimum of the current factor set. -/
def Engine.batch_optimize {F E : Type} (eng : Engine F E) (s : GraphState F E) :
    GraphState F E :=
  { factors := s.factors, estimates := eng.optimum s.factors }

/-- The suffix a comma-separated join produces after its first element: each
remaining element preceded by a comma. -/
def commaTail : List String → String
  | [] => ""
  | e :: es => "," ++ e ++ commaTail es

/-! ## Properties of the angle normalization -/

/-- `standardRad t` is the representative of `t` modulo 2π chosen by the ceiling
formula: it equals `s` whenever `s` is in (−π, π] and differs from `t` by an
integer multiple of 2π. -/
theorem standardRad_unique (t s : ℝ) (k : ℤ) (h1 : -π < s) (h2 : s ≤ π)
    (h : t = s + 2 * π * k) : standardRad t = s := by
  have hpi : (0 : ℝ) < 2 * π := by positivity
  have hc : ⌈(t - π) / (2 * π)⌉ = k := by
    rw [Int.ceil_eq_iff]
    constructor
    · rw [lt_div_iff₀ hpi, h]
      nlinarith
    · rw [div_le_iff₀ hpi, h]
      nlinarith
  rw [standardRad, hc, h]
  ring

/-- The output of `standardRad` lies in (−π, π]. -/
theorem standardRad_mem (t : ℝ) : -π < standardRad t ∧ standardRad t ≤ π := by
  have hpi : (0 : ℝ) < 2 * π := by positivity
  have hne : (2 * π : ℝ) ≠ 0 := ne_of_gt hpi
  have hmul : 2 * π * ((t - π) / (2 * π)) = t - π := by field_simp
  constructor
  · have h := Int.ceil_lt_add_one ((t - π) / (2 * π))
    have h3 := mul_lt_mul_of_pos_left h hpi
    rw [mul_add, hmul, mul_one] at h3
    rw [standardRad]
    linarith
  · have h := Int.le_ceil ((t - π) / (2 * π))
    have h3 := mul_le_mul_of_nonneg_left h (le_of_lt hpi)
    rw [hmul] at h3
    rw [standardRad]
    linarith

/-- `standardRad` is the identity on (−π, π]. -/
theorem standardRad_eq_self {t : ℝ} (h1 : -π < t) (h2 : t ≤ π) : standardRad t = t :=
  standardRad_unique t t 0 h1 h2 (by push_cast; ring)

/-- `standardRad` shifts `t` by an integer multiple of 2π. -/
theorem standardRad_sub (t : ℝ) : ∃ k : ℤ, standardRad t = t - 2 * π * k :=
  ⟨_, rfl⟩

/-- `standardRad` is idempotent. -/
theorem standardRad_standardRad (t : ℝ) : standardRad (standardRad t) = standardRad t :=
  standardRad_eq_self (standardRad_mem t).1 (standardRad_mem t).2

/-- Angle normalization does not change the cosine. -/
theorem cos_standardRad (t : ℝ) : cos (standardRad t) = cos t := by
  obtain ⟨k, hk⟩ := standardRad_sub t
  rw [hk, show t - 2 * π * k = t - k * (2 * π) by ring, Real.cos_sub_int_mul_two_pi]

/-- Angle normalization does not change the sine. -/
theorem sin_standardRad (t : ℝ) : sin (standardRad t) = sin t := by
  obtain ⟨k, hk⟩ := standardRad_sub t
  rw [hk, show t - 2 * π * k = t - k * (2 * π) by ring, Real.sin_sub_int_mul_two_pi]

/-- `standardRad` maps every integer multiple of 2π to 0. -/
theorem standardRad_two_pi_int (k : ℤ) : standardRad (2 * π * k) = 0 :=
  standardRad_unique _ 0 k (by linarith [pi_pos]) (le_of_lt pi_pos) (by ring)

/-- 0 is not congruent to π modulo 2π. -/
theorem zero_ne_pi_mod (k : ℤ) : (0 : ℝ) ≠ π + 2 * π * k := by
  intro h
  have hm : π * (1 + 2 * (k : ℝ)) = 0 := by rw [mul_add, mul_one]; linarith
  rcases mul_eq_zero.mp hm with h1 | h1
  · exact Real.pi_ne_zero h1
  · have h2 : ((1 + 2 * k : ℤ) : ℝ) = 0 := by push_cast; linarith
    have h3 : (1 + 2 * k : ℤ) = 0 := by exact_mod_cast h2
    omega

/-- Away from the π + 2πk wrap boundary, `standardRad` is differentiable with
derivative 1 (it agrees locally with a shift by a constant). -/
theorem hasDerivAt_standardRad {t : ℝ} (h : ∀ k : ℤ, t ≠ π + 2 * π * k) :
    HasDerivAt standardRad 1 t := by
  set k := ⌈(t - π) / (2 * π)⌉ with hk
  have hpi : (0 : ℝ) < 2 * π := by positivity
  have hmul : 2 * π * ((t - π) / (2 * π)) = t - π := by field_simp
  have hub : t < π + 2 * π * k := by
    have h1 := Int.le_ceil ((t - π) / (2 * π))
    have h2 := mul_le_mul_of_nonneg_left h1 (le_of_lt hpi)
    rw [hmul] at h2
    rcases lt_or_eq_of_le h2 with h3 | h3
    · linarith
    · exact absurd (by linarith : t = π + 2 * π * k) (h k)
  have hlb : π + 2 * π * ((k : ℝ) - 1) < t := by
    have h1 := Int.ceil_lt_add_one ((t - π) / (2 * π))
    have h2 := mul_lt_mul_of_pos_left h1 hpi
    rw [mul_add, hmul, mul_one] at h2
    linarith
  have hev : standardRad =ᶠ[𝓝 t] fun u => u - 2 * π * k := by
    filter_upwards [Ioo_mem_nhds hlb hub] with u hu
    exact standardRad_unique u (u - 2 * π * k) k (by linarith [hu.1]) (by linarith [hu.2])
      (by ring)
  exact ((hasDerivAt_id t).sub_const (2 * π * (k : ℝ))).congr_of_eventuallyEq hev

/-- A function with constant difference quotients (an affine function) has that
quotient as derivative everywhere. -/
theorem hasDerivAt_of_affine {f : ℝ → ℝ} {a : ℝ} (x : ℝ)
    (h : ∀ s u, f s - f u = a * (s - u)) : HasDerivAt f a x := by
  have hf : f = fun s => a * s + (f x - a * x) := by
    funext s
    have h1 := h s x
    linarith
  rw [hf]
  simpa using ((hasDerivAt_id x).const_mul a).add_const (f x - a * x)

/-- Finite-difference quotients of a differentiable function approach the
derivative within any tolerance. -/
theorem fdQuot_of_hasDerivAt {f : ℝ → ℝ} {d x : ℝ} (hf : HasDerivAt f d x) {tol : ℝ}
    (htol : 0 < tol) :
    ∀ᶠ h in 𝓝[≠] (0 : ℝ), |(f (x + h) - f x) / h - d| < tol := by
  have h1 := hasDerivAt_iff_tendsto_slope_zero.mp hf
  have h2 := Metric.tendsto_nhds.mp h1 tol htol
  filter_upwards [h2] with h hh
  rw [Real.dist_eq] at hh
  simpa [smul_eq_mul, div_eq_inv_mul] using hh

/-! ## Partial derivatives of the basic error functions -/

/-- The matrix `make_Matrix(3,3, -c,-s,p.y, s,-c,-p.x, 0,0,-1)` of
`Pose2d_Pose2d_Factor::jacobian` is the partial-derivative block of
`basic_error` with respect to `pose1`, away from the angle-wrap boundary. -/
theorem pp1_partials (m : Pose2d) (v1 v2 : Fin 3 → ℝ)
    (hin : ∀ k : ℤ, v2 2 - v1 2 ≠ π + 2 * π * k)
    (hout : ∀ k : ℤ, standardRad (v2 2 - v1 2) - m.t ≠ π + 2 * π * k) :
    HasPartials (fun u => ppBasicError m [u, v2])
      (ppD1 (Pose2d.ofVector v1) (Pose2d.ofVector v2)) v1 := by
  intro i j
  fin_cases i <;> fin_cases j <;>
    simp only [ppD1, Pose2d.ominus, Pose2d.ofVector, Matrix.cons_val', Matrix.cons_val_zero,
      Matrix.cons_val_one, Matrix.head_cons, Matrix.empty_val', Matrix.cons_val_fin_one,
      Matrix.head_fin_const, Matrix.of_apply, Matrix.cons_val_two, Matrix.tail_cons, Fin.isValue]
  · apply hasDerivAt_of_affine
    intro s u
    simp [ppBasicError, Pose2d.ominus, Pose2d.ofVector, Pose2d.vector, Function.update_apply]
    ring
  · apply hasDerivAt_of_affine
    intro s u
    simp [ppBasicError, Pose2d.ominus, Pose2d.ofVector, Pose2d.vector, Function.update_apply]
    ring
  · show HasDerivAt (fun s => ppBasicError m [Function.update v1 2 s, v2] 0)
      (-sin (v1 2) * (v2 0 - v1 0) + cos (v1 2) * (v2 1 - v1 1)) (v1 2)
    have key : HasDerivAt
        (fun s => cos s * (v2 0 - v1 0) + sin s * (v2 1 - v1 1) - m.x)
        (-sin (v1 2) * (v2 0 - v1 0) + cos (v1 2) * (v2 1 - v1 1)) (v1 2) := by
      have h1 := (Real.hasDerivAt_cos (v1 2)).mul_const (v2 0 - v1 0)
      have h2 := (Real.hasDerivAt_sin (v1 2)).mul_const (v2 1 - v1 1)
      simpa using (h1.add h2).sub_const m.x
    have heq : (fun s => ppBasicError m [Function.update v1 2 s, v2] 0) =
        fun s => cos s * (v2 0 - v1 0) + sin s * (v2 1 - v1 1) - m.x := by
      funext s
      simp [ppBasicError, Pose2d.ominus, Pose2d.ofVector, Pose2d.vector, Function.update_apply]
    rw [heq]
    exact key
  · apply hasDerivAt_of_affine
    intro s u
    simp [ppBasicError, Pose2d.ominus, Pose2d.ofVector, Pose2d.vector, Function.update_apply]
    ring
  · apply hasDerivAt_of_affine
    intro s u
    simp [ppBasicError, Pose2d.ominus, Pose2d.ofVector, Pose2d.vector, Function.update_apply]
    ring
  · show HasDerivAt (fun s => ppBasicError m [Function.update v1 2 s, v2] 1)
      (-(cos (v1 2) * (v2 0 - v1 0) + sin (v1 2) * (v2 1 - v1 1))) (v1 2)
    have key : HasDerivAt
        (fun s => -sin s * (v2 0 - v1 0) + cos s * (v2 1 - v1 1) - m.y)
        (-(cos (v1 2) * (v2 0 - v1 0) + sin (v1 2) * (v2 1 - v1 1))) (v1 2) := by
      have h1 := ((Real.hasDerivAt_sin (v1 2)).neg).mul_const (v2 0 - v1 0)
      have h2 := (Real.hasDerivAt_cos (v1 2)).mul_const (v2 1 - v1 1)
      have h3 := (h1.add h2).sub_const m.y
      convert h3 using 1
      ring
    have heq : (fun s => ppBasicError m [Function.update v1 2 s, v2] 1) =
        fun s => -sin s * (v2 0 - v1 0) + cos s * (v2 1 - v1 1) - m.y := by
      funext s
      simp [ppBasicError, Pose2d.ominus, Pose2d.ofVector, Pose2d.vector, Function.update_apply]
    rw [heq]
    exact key
  · apply hasDerivAt_of_affine
    intro s u
    simp [ppBasicError, Pose2d.ominus, Pose2d.ofVector, Pose2d.vector, Function.update_apply]
  · apply hasDerivAt_of_affine
    intro s u
    simp [ppBasicError, Pose2d.ominus, Pose2d.ofVector, Pose2d.vector, Function.update_apply]
  · show HasDerivAt (fun s => ppBasicError m [Function.update v1 2 s, v2] 2) (-1) (v1 2)
    have key : HasDerivAt (fun s => standardRad (standardRad (v2 2 - s) - m.t)) (-1) (v1 2) := by
      have h1 : HasDerivAt (fun s : ℝ => v2 2 - s) (-1) (v1 2) := by
        simpa using (hasDerivAt_id (v1 2)).const_sub (v2 2)
      have h2 := (hasDerivAt_standardRad hin).comp (v1 2) h1
      have h3 := h2.sub_const m.t
      have h4 := (hasDerivAt_standardRad hout).comp (v1 2) h3
      simpa [Function.comp] using h4
    have heq : (fun s => ppBasicError m [Function.update v1 2 s, v2] 2) =
        fun s => standardRad (standardRad (v2 2 - s) - m.t) := by
      funext s
      simp [ppBasicError, Pose2d.ominus, Pose2d.ofVector, Pose2d.vector, Function.update_apply]
    rw [heq]
    exact key

/-- The matrix `make_Matrix(3,3, c,s,0, -s,c,0, 0,0,1)` of
`Pose2d_Pose2d_Factor::jacobian` is the partial-derivative block of
`basic_error` with respect to `pose2`, away from the angle-wrap boundary. -/
theorem pp2_partials (m : Pose2d) (v1 v2 : Fin 3 → ℝ)
    (hin : ∀ k : ℤ, v2 2 - v1 2 ≠ π + 2 * π * k)
    (hout : ∀ k : ℤ, standardRad (v2 2 - v1 2) - m.t ≠ π + 2 * π * k) :
    HasPartials (fun u => ppBasicError m [v1, u]) (ppD2 (Pose2d.ofVector v1)) v2 := by
  intro i j
  fin_cases i <;> fin_cases j <;>
    simp only [ppD2, Pose2d.ofVector, Matrix.cons_val', Matrix.cons_val_zero,
      Matrix.cons_val_one, Matrix.head_cons, Matrix.empty_val', Matrix.cons_val_fin_one,
      Matrix.head_fin_const, Matrix.of_apply, Matrix.cons_val_two, Matrix.tail_cons, Fin.isValue]
  · apply hasDerivAt_of_affine
    intro s u
    simp [ppBasicError, Pose2d.ominus, Pose2d.ofVector, Pose2d.vector, Function.update_apply]
    ring
  · apply hasDerivAt_of_affine
    intro s u
    simp [ppBasicError, Pose2d.ominus, Pose2d.ofVector, Pose2d.vector, Function.update_apply]
    ring
  · apply hasDerivAt_of_affine
    intro s u
    simp [ppBasicError, Pose2d.ominus, Pose2d.ofVector, Pose2d.vector, Function.update_apply]
  · apply hasDerivAt_of_affine
    intro s u
    simp [ppBasicError, Pose2d.ominus, Pose2d.ofVector, Pose2d.vector, Function.update_apply]
    ring
  · apply hasDerivAt_of_affine
    intro s u
    simp [ppBasicError, Pose2d.ominus, Pose2d.ofVector, Pose2d.vector, Function.update_apply]
    ring
  · apply hasDerivAt_of_affine
    intro s u
    simp [ppBasicError, Pose2d.ominus, Pose2d.ofVector, Pose2d.vector, Function.update_apply]
  · apply hasDerivAt_of_affine
    intro s u
    simp [ppBasicError, Pose2d.ominus, Pose2d.ofVector, Pose2d.vector, Function.update_apply]
  · apply hasDerivAt_of_affine
    intro s u
    simp [ppBasicError, Pose2d.ominus, Pose2d.ofVector, Pose2d.vector, Function.update_apply]
  · show HasDerivAt (fun s => ppBasicError m [v1, Function.update v2 2 s] 2) 1 (v2 2)
    have key : HasDerivAt (fun s => standardRad (standardRad (s - v1 2) - m.t)) 1 (v2 2) := by
      have h1 : HasDerivAt (fun s : ℝ => s - v1 2) 1 (v2 2) :=
        (hasDerivAt_id (v2 2)).sub_const (v1 2)
      have h2 := (hasDerivAt_standardRad hin).comp (v2 2) h1
      have h3 := h2.sub_const m.t
      have h4 := (hasDerivAt_standardRad hout).comp (v2 2) h3
      simpa [Function.comp] using h4
    have heq : (fun s => ppBasicError m [v1, Function.update v2 2 s] 2) =
        fun s => standardRad (standardRad (s - v1 2) - m.t) := by
      funext s
      simp [ppBasicError, Pose2d.ominus, Pose2d.ofVector, Pose2d.vector, Function.update_apply]
    rw [heq]
    exact key

/-- The identity matrix ("derivatives are all 1 (eye)") is the
partial-derivative block of `Pose2d_Factor::basic_error`, away from the
angle-wrap boundary. -/
theorem pf_partials (prior : Pose2d) (v : Fin 3 → ℝ)
    (hw : ∀ k : ℤ, v 2 - prior.t ≠ π + 2 * π * k) :
    HasPartials (pfBasicError prior) (1 : Matrix (Fin 3) (Fin 3) ℝ) v := by
  intro i j
  fin_cases i <;> fin_cases j <;>
    simp only [Matrix.one_apply, Fin.isValue, if_true, if_false, reduceCtorEq]
  · apply hasDerivAt_of_affine
    intro s u
    simp [pfBasicError, Pose2d.vector, Function.update_apply, Matrix.one_apply,
      Matrix.vecHead, Matrix.vecTail, Function.comp]
  · apply hasDerivAt_of_affine
    intro s u
    simp [pfBasicError, Pose2d.vector, Function.update_apply, Matrix.one_apply,
      Matrix.vecHead, Matrix.vecTail, Function.comp]
  · apply hasDerivAt_of_affine
    intro s u
    simp [pfBasicError, Pose2d.vector, Function.update_apply, Matrix.one_apply,
      Matrix.vecHead, Matrix.vecTail, Function.comp]
  · apply hasDerivAt_of_affine
    intro s u
    simp [pfBasicError, Pose2d.vector, Function.update_apply, Matrix.one_apply,
      Matrix.vecHead, Matrix.vecTail, Function.comp]
  · apply hasDerivAt_of_affine
    intro s u
    simp [pfBasicError, Pose2d.vector, Function.update_apply, Matrix.one_apply,
      Matrix.vecHead, Matrix.vecTail, Function.comp]
  · apply hasDerivAt_of_affine
    intro s u
    simp [pfBasicError, Pose2d.vector, Function.update_apply, Matrix.one_apply,
      Matrix.vecHead, Matrix.vecTail, Function.comp]
  · apply hasDerivAt_of_affine
    intro s u
    simp [pfBasicError, Pose2d.vector, Function.update_apply, Matrix.one_apply,
      Matrix.vecHead, Matrix.vecTail, Function.comp]
  · apply hasDerivAt_of_affine
    intro s u
    simp [pfBasicError, Pose2d.vector, Function.update_apply, Matrix.one_apply,
      Matrix.vecHead, Matrix.vecTail, Function.comp]
  · show HasDerivAt (fun s => pfBasicError prior (Function.update v 2 s) 2)
      ((1 : Matrix (Fin 3) (Fin 3) ℝ) 2 2) (v 2)
    have hone : (1 : Matrix (Fin 3) (Fin 3) ℝ) 2 2 = 1 := Matrix.one_apply_eq 2
    rw [hone]
    have key : HasDerivAt (fun s => standardRad (s - prior.t)) 1 (v 2) := by
      have h1 : HasDerivAt (fun s : ℝ => s - prior.t) 1 (v 2) :=
        (hasDerivAt_id (v 2)).sub_const prior.t
      have h2 := (hasDerivAt_standardRad hw).comp (v 2) h1
      simpa [Function.comp] using h2
    have heq : (fun s => pfBasicError prior (Function.update v 2 s) 2) =
        fun s => standardRad (s - prior.t) := by
      funext s
      simp [pfBasicError, Pose2d.vector, Function.update_apply, Matrix.vecHead, Matrix.vecTail,
        Function.comp]
    rw [heq]
    exact key

/-- The matrix `make_Matrix(2,3, -c,-s,y, s,-c,-x)` of
`Pose2d_Point2d_Factor::jacobian` is the partial-derivative block of
`basic_error` with respect to the pose node (no angular residual, so no
boundary condition is needed). -/
theorem pt1_partials (m : Point2d) (v0 : Fin 3 → ℝ) (w : Fin 2 → ℝ) :
    HasPartials (fun u => ptBasicError m u w)
      (ptD1 (Pose2d.ofVector v0) (Point2d.ofVector w)) v0 := by
  intro i j
  fin_cases i <;> fin_cases j <;>
    simp only [ptD1, Pose2d.ofVector, Point2d.ofVector, Matrix.cons_val', Matrix.cons_val_zero,
      Matrix.cons_val_one, Matrix.head_cons, Matrix.empty_val', Matrix.cons_val_fin_one,
      Matrix.head_fin_const, Matrix.of_apply, Matrix.cons_val_two, Matrix.tail_cons, Fin.isValue]
  · apply hasDerivAt_of_affine
    intro s u
    simp [ptBasicError, Pose2d.transform_to, Pose2d.ofVector, Point2d.ofVector,
      Point2d.vector, Function.update_apply]
    ring
  · apply hasDerivAt_of_affine
    intro s u
    simp [ptBasicError, Pose2d.transform_to, Pose2d.ofVector, Point2d.ofVector,
      Point2d.vector, Function.update_apply]
    ring
  · show HasDerivAt (fun s => ptBasicError m (Function.update v0 2 s) w 0)
      (-sin (v0 2) * (w 0 - v0 0) + cos (v0 2) * (w 1 - v0 1)) (v0 2)
    have key : HasDerivAt
        (fun s => cos s * (w 0 - v0 0) + sin s * (w 1 - v0 1) - m.x)
        (-sin (v0 2) * (w 0 - v0 0) + cos (v0 2) * (w 1 - v0 1)) (v0 2) := by
      have h1 := (Real.hasDerivAt_cos (v0 2)).mul_const (w 0 - v0 0)
      have h2 := (Real.hasDerivAt_sin (v0 2)).mul_const (w 1 - v0 1)
      simpa using (h1.add h2).sub_const m.x
    have heq : (fun s => ptBasicError m (Function.update v0 2 s) w 0) =
        fun s => cos s * (w 0 - v0 0) + sin s * (w 1 - v0 1) - m.x := by
      funext s
      simp [ptBasicError, Pose2d.transform_to, Pose2d.ofVector, Point2d.ofVector,
        Point2d.vector, Function.update_apply]
    rw [heq]
    exact key
  · apply hasDerivAt_of_affine
    intro s u
    simp [ptBasicError, Pose2d.transform_to, Pose2d.ofVector, Point2d.ofVector,
      Point2d.vector, Function.update_apply]
    ring
  · apply hasDerivAt_of_affine
    intro s u
    simp [ptBasicError, Pose2d.transform_to, Pose2d.ofVector, Point2d.ofVector,
      Point2d.vector, Function.update_apply]
    ring
  · show HasDerivAt (fun s => ptBasicError m (Function.update v0 2 s) w 1)
      (-(cos (v0 2) * (w 0 - v0 0) + sin (v0 2) * (w 1 - v0 1))) (v0 2)
    have key : HasDerivAt
        (fun s => -sin s * (w 0 - v0 0) + cos s * (w 1 - v0 1) - m.y)
        (-(cos (v0 2) * (w 0 - v0 0) + sin (v0 2) * (w 1 - v0 1))) (v0 2) := by
      have h1 := ((Real.hasDerivAt_sin (v0 2)).neg).mul_const (w 0 - v0 0)
      have h2 := (Real.hasDerivAt_cos (v0 2)).mul_const (w 1 - v0 1)
      have h3 := (h1.add h2).sub_const m.y
      convert h3 using 1
      ring
    have heq : (fun s => ptBasicError m (Function.update v0 2 s) w 1) =
        fun s => -sin s * (w 0 - v0 0) + cos s * (w 1 - v0 1) - m.y := by
      funext s
      simp [ptBasicError, Pose2d.transform_to, Pose2d.ofVector, Point2d.ofVector,
        Point2d.vector, Function.update_apply]
    rw [heq]
    exact key

/-- The matrix `make_Matrix(2,2, c,s, -s,c)` of `Pose2d_Point2d_Factor::jacobian`
is the partial-derivative block of `basic_error` with respect to the point
node. -/
theorem pt2_partials (m : Point2d) (v0 : Fin 3 → ℝ) (w : Fin 2 → ℝ) :
    HasPartials (fun u => ptBasicError m v0 u) (ptD2 (Pose2d.ofVector v0)) w := by
  intro i j
  fin_cases i <;> fin_cases j <;>
    simp only [ptD2, Pose2d.ofVector, Matrix.cons_val', Matrix.cons_val_zero,
      Matrix.cons_val_one, Matrix.head_cons, Matrix.empty_val', Matrix.cons_val_fin_one,
      Matrix.head_fin_const, Matrix.of_apply, Matrix.tail_cons, Fin.isValue] <;>
  · apply hasDerivAt_of_affine
    intro s u
    simp [ptBasicError, Pose2d.transform_to, Pose2d.ofVector, Point2d.ofVector,
      Point2d.vector, Function.update_apply]
    ring

/-- A residual map with a partial-derivative block has finite-difference
quotients matching the block within any tolerance. -/
theorem fdClose_of_hasPartials {n m : ℕ} {F : (Fin n → ℝ) → Fin m → ℝ}
    {D : Matrix (Fin m) (Fin n) ℝ} {v : Fin n → ℝ} (h : HasPartials F D v) :
    FDClose F D v := by
  intro tol htol i j
  have hx : Function.update v j (v j) = v := Function.update_eq_self j v
  filter_upwards [fdQuot_of_hasDerivAt (h i j) htol] with u hu
  simpa [hx] using hu

/-- `standardRad` fixes 0. -/
theorem standardRad_zero : standardRad 0 = 0 :=
  standardRad_eq_self (by linarith [pi_pos]) (le_of_lt pi_pos)

/-- `standardRad` maps `u` to 0 whenever `u` is an integer multiple of 2π. -/
theorem standardRad_eq_zero (u : ℝ) (k : ℤ) (h : u = 2 * π * k) : standardRad u = 0 :=
  standardRad_unique u 0 k (by linarith [pi_pos]) (le_of_lt pi_pos) (by rw [h]; ring)

/-- `standardRad` jumps at the wrap boundary: it is not continuous at π
(approaching from above, the values approach −π). -/
theorem standardRad_not_continuousAt_pi : ¬ ContinuousAt standardRad π := by
  intro h
  have hone : Tendsto (fun n : ℕ => 1 / ((n : ℝ) + 1)) atTop (𝓝 0) :=
    tendsto_one_div_add_atTop_nhds_zero_nat
  have hseq : Tendsto (fun n : ℕ => π + 1 / ((n : ℝ) + 1)) atTop (𝓝 π) := by
    simpa using tendsto_const_nhds.add hone
  have h2 : Tendsto (fun n : ℕ => standardRad (π + 1 / ((n : ℝ) + 1))) atTop
      (𝓝 (standardRad π)) := by
    simpa [Function.comp] using h.tendsto.comp hseq
  have hval : (fun n : ℕ => standardRad (π + 1 / ((n : ℝ) + 1))) =
      fun n : ℕ => -π + 1 / ((n : ℝ) + 1) := by
    funext n
    apply standardRad_unique _ _ 1
    · have hp : (0 : ℝ) < 1 / ((n : ℝ) + 1) := by positivity
      linarith
    · have hn : (0 : ℝ) ≤ (n : ℝ) := Nat.cast_nonneg n
      have h1n : (1 : ℝ) / ((n : ℝ) + 1) ≤ 1 := by
        rw [div_le_one (by positivity)]
        linarith
      linarith [Real.pi_gt_three]
    · push_cast
      ring
  rw [hval] at h2
  have h5 : Tendsto (fun n : ℕ => -π + 1 / ((n : ℝ) + 1)) atTop (𝓝 (-π)) := by
    simpa using tendsto_const_nhds.add hone
  have h6 : standardRad π = -π := tendsto_nhds_unique h2 h5
  rw [standardRad_eq_self (by linarith [pi_pos]) le_rfl] at h6
  linarith [pi_pos]

/-! ## The claims -/

/-- C1: for any fixed sequence of factors, the node estimates produced by
incremental `add()` calls followed by one `batch_optimize()` equal the
estimates produced by a from-scratch `batch_optimize()` over the same factor
set (the incremental path accumulates exactly the given factor set, and the
batch solve is determined by the factor set alone). -/
theorem c1_incremental_batch (F E : Type) (eng : Engine F E) (fs : List F) (e0 e1 : E) :
    (eng.batch_optimize (fs.foldl eng.add ⟨[], e0⟩)).estimates =
      (eng.batch_optimize ⟨fs, e1⟩).estimates := by
  have h : ∀ (l : List F) (s : GraphState F E), (l.foldl eng.add s).factors = s.factors ++ l := by
    intro l
    induction l with
    | nil => intro s; simp
    | cons f l ih =>
      intro s
      simp [Engine.add, ih]
  simp [Engine.batch_optimize, h]

/-- C3: the angular (third) residual component of `Pose2d_Factor::basic_error`
and `Pose2d_Pose2d_Factor::basic_error` is wrapped by `standardRad` after the
subtraction, hence always lies in (−π, π]; in particular a prior of heading
π − 0.01 against an estimate of heading −π + 0.01 yields the residual 0.02,
never ≈ 2π. -/
theorem c3_angle_wrap :
    (∀ (prior : Pose2d) (v : Fin 3 → ℝ),
      pfBasicError prior v 2 = standardRad (v 2 - prior.t) ∧
      -π < pfBasicError prior v 2 ∧ pfBasicError prior v 2 ≤ π) ∧
    (∀ (m : Pose2d) (v1 v2 : Fin 3 → ℝ),
      ppBasicError m [v1, v2] 2 = standardRad (standardRad (v2 2 - v1 2) - m.t)) ∧
    (∀ (m : Pose2d) (vec : List (Fin 3 → ℝ)),
      -π < ppBasicError m vec 2 ∧ ppBasicError m vec 2 ≤ π) ∧
    pfBasicError ⟨0, 0, π - 0.01⟩ ![0, 0, -π + 0.01] 2 = 0.02 := by
  refine ⟨fun prior v => ⟨?_, ?_⟩, fun m v1 v2 => ?_, fun m vec => ?_, ?_⟩
  · simp [pfBasicError, Pose2d.vector, Matrix.vecHead, Matrix.vecTail, Function.comp]
  · have h : pfBasicError prior v 2 = standardRad (v 2 - prior.t) := by
      simp [pfBasicError, Pose2d.vector, Matrix.vecHead, Matrix.vecTail, Function.comp]
    rw [h]
    exact ⟨(standardRad_mem _).1, (standardRad_mem _).2⟩
  · simp [ppBasicError, Pose2d.ominus, Pose2d.ofVector, Pose2d.vector]
  · have h2 : ppBasicError m vec 2 = standardRad
        (((if vec.length = 4 then
            ((Pose2d.ofVector (vec.getD 3 0)).oplus
              (Pose2d.ofVector (vec.getD 1 0))).ominus
              ((Pose2d.ofVector (vec.getD 2 0)).oplus (Pose2d.ofVector (vec.getD 0 0)))
          else
            (Pose2d.ofVector (vec.getD 1 0)).ominus
              (Pose2d.ofVector (vec.getD 0 0))).vector - m.vector) 2) := by
      by_cases hl : vec.length = 4 <;>
        simp [ppBasicError, hl]
    rw [h2]
    exact ⟨(standardRad_mem _).1, (standardRad_mem _).2⟩
  · have h : pfBasicError ⟨0, 0, π - 0.01⟩ ![0, 0, -π + 0.01] 2 =
        standardRad ((-π + 0.01) - (π - 0.01)) := by
      simp [pfBasicError, Pose2d.vector, Matrix.vecHead, Matrix.vecTail, Function.comp]
    rw [h]
    apply standardRad_unique _ _ (-1)
    · linarith [pi_pos]
    · linarith [Real.pi_gt_three]
    · push_cast
      ring

/-- C6: `Pose2d_Pose2d_Factor::initialize` fails fatally when pose1 is
uninitialized; when pose2 is uninitialized it is initialized to
`pose1.value().oplus(measure)`; an already-initialized pose2 is left
unchanged (in both the plain and the anchored variant). -/
theorem c6_pp_initialization (m : Pose2d) (p2 a1 a2 : Option Pose2d) (a b b1 : Pose2d) :
    (ppInit m false none p2 a1 a2).1 = some SlamError.uninitializedNode ∧
    (ppInit m true none p2 a1 a2).1 = some SlamError.uninitializedNode ∧
    ppInit m false (some a) none a1 a2 = (none, (some a, some (a.oplus m), a1, a2)) ∧
    ppInit m false (some a) (some b) a1 a2 = (none, (some a, some b, a1, a2)) ∧
    (ppInit m true (some a) none (some b1) a2).2.2.1 = some (a.oplus m) ∧
    (ppInit m true (some a) (some b) (some b1) a2).2.2.1 = some b := by
  exact ⟨rfl, rfl, rfl, rfl, rfl, rfl⟩

/-- C6 witness: the theorem evaluated at concrete node values. -/
theorem c6_pp_initialization_witness :
    ppInit ⟨1, 0, 0⟩ false (some ⟨0, 0, 0⟩) none none none =
      (none, (some ⟨0, 0, 0⟩, some ((Pose2d.mk 0 0 0).oplus ⟨1, 0, 0⟩), none, none)) :=
  (c6_pp_initialization ⟨1, 0, 0⟩ none none none ⟨0, 0, 0⟩ ⟨0, 0, 0⟩ ⟨0, 0, 0⟩).2.2.1

/-- C7: `Pose2d_Point2d_Factor::initialize` fails fatally when the pose is
uninitialized; an uninitialized point is initialized to
`pose.value().transform_from(measure)`; an initialized point is left
unchanged.  A pose at (0,0,0) observing local offset (2,0) initializes the
landmark to world (2,0). -/
theorem c7_pt_initialization :
    (∀ (m : Point2d) (q : Option Point2d),
      ptInit m none q = (some SlamError.uninitializedNode, (none, q))) ∧
    (∀ (m : Point2d) (p : Pose2d),
      ptInit m (some p) none = (none, (some p, some (p.transform_from m)))) ∧
    (∀ (m : Point2d) (p : Pose2d) (q : Point2d),
      ptInit m (some p) (some q) = (none, (some p, some q))) ∧
    ptInit ⟨2, 0⟩ (some ⟨0, 0, 0⟩) none = (none, (some ⟨0, 0, 0⟩, some ⟨2, 0⟩)) := by
  refine ⟨fun m q => rfl, fun m p => rfl, fun m p q => rfl, ?_⟩
  simp [ptInit, Pose2d.transform_from]

/-- C8 counterexample: an anchored `Pose2d_Pose2d_Factor` whose pose1 is
initialized, pose2 uninitialized and anchor1 uninitialized signals the fatal
`require(anchor1->initialized())` failure, but pose2 has already been
initialized by the same call — the graph is not in its pre-call state. -/
theorem c8_counterexample :
    (ppInit ⟨0, 0, 0⟩ true (some ⟨0, 0, 0⟩) none none none).1 =
      some SlamError.uninitializedNode ∧
    (ppInit ⟨0, 0, 0⟩ true (some ⟨0, 0, 0⟩) none none none).2.2.1 ≠ none := by
  refine ⟨rfl, ?_⟩
  simp [ppInit]

/-- C8 (amended): a failing `initialize` precondition signals the fatal error
and aborts the call; the failing call modifies no node value, except that the
anchored variant failing on anchor1 may already have initialized an
uninitialized pose2 (pose2's init precedes the anchor1 check). -/
theorem c8_amended (m : Pose2d) (mq : Point2d) (p2 a1 a2 : Option Pose2d)
    (q : Option Point2d) (a b : Pose2d) :
    ppInit m false none p2 a1 a2 = (some SlamError.uninitializedNode, (none, p2, a1, a2)) ∧
    ppInit m true none p2 a1 a2 = (some SlamError.uninitializedNode, (none, p2, a1, a2)) ∧
    ptInit mq none q = (some SlamError.uninitializedNode, (none, q)) ∧
    ppInit m true (some a) (some b) none a2 =
      (some SlamError.uninitializedNode, (some a, some b, none, a2)) ∧
    ppInit m true (some a) none none a2 =
      (some SlamError.uninitializedNode, (some a, some (a.oplus m), none, a2)) := by
  exact ⟨rfl, rfl, rfl, rfl, rfl⟩

/-- C10: the `Pose2d_Pose2d_Factor` constructor accepts 0 or 2 anchors and
fails fatally on exactly one; the node list is `[pose1, pose2]` or
`[pose1, pose2, anchor1, anchor2]`; `basic_error` uses the anchored
prediction exactly when the supplied value list has size 4. -/
theorem c10_ctor :
    (∀ p1 p2 : ℕ, ppCtor p1 p2 none none = .ok [p1, p2]) ∧
    (∀ p1 p2 a1 a2 : ℕ, ppCtor p1 p2 (some a1) (some a2) = .ok [p1, p2, a1, a2]) ∧
    (∀ p1 p2 a1 : ℕ, ppCtor p1 p2 (some a1) none = .error SlamError.anchorMismatch) ∧
    (∀ p1 p2 a2 : ℕ, ppCtor p1 p2 none (some a2) = .error SlamError.anchorMismatch) ∧
    (∀ (m : Pose2d) (v1 v2 v3 v4 : Fin 3 → ℝ),
      ppBasicError m [v1, v2, v3, v4] =
        Function.update
          ((((Pose2d.ofVector v4).oplus (Pose2d.ofVector v2)).ominus
              ((Pose2d.ofVector v3).oplus (Pose2d.ofVector v1))).vector - m.vector) 2
          (standardRad (((((Pose2d.ofVector v4).oplus (Pose2d.ofVector v2)).ominus
              ((Pose2d.ofVector v3).oplus (Pose2d.ofVector v1))).vector - m.vector) 2))) ∧
    (∀ (m : Pose2d) (vec : List (Fin 3 → ℝ)), vec.length ≠ 4 →
      ppBasicError m vec =
        Function.update
          (((Pose2d.ofVector (vec.getD 1 0)).ominus
              (Pose2d.ofVector (vec.getD 0 0))).vector - m.vector) 2
          (standardRad ((((Pose2d.ofVector (vec.getD 1 0)).ominus
              (Pose2d.ofVector (vec.getD 0 0))).vector - m.vector) 2))) := by
    refine ⟨fun p1 p2 => rfl, fun p1 p2 a1 a2 => rfl, fun p1 p2 a1 => rfl,
      fun p1 p2 a2 => rfl, fun m v1 v2 v3 v4 => rfl, fun m vec hl => ?_⟩
    simp [ppBasicError, hl]

/-- C10 witness: the non-anchored branch of `basic_error` on a two-element
value list, with the length hypothesis discharged. -/
theorem c10_ctor_witness :
    ppBasicError ⟨0, 0, 0⟩ [![1, 0, 0], ![1, 0, 0]] =
      Function.update
        (((Pose2d.ofVector (([![1, 0, 0], ![1, 0, 0]] :
            List (Fin 3 → ℝ)).getD 1 0)).ominus
            (Pose2d.ofVector (([![1, 0, 0], ![1, 0, 0]] :
            List (Fin 3 → ℝ)).getD 0 0))).vector - (Pose2d.mk 0 0 0).vector) 2
        (standardRad ((((Pose2d.ofVector (([![1, 0, 0], ![1, 0, 0]] :
            List (Fin 3 → ℝ)).getD 1 0)).ominus
            (Pose2d.ofVector (([![1, 0, 0], ![1, 0, 0]] :
            List (Fin 3 → ℝ)).getD 0 0))).vector - (Pose2d.mk 0 0 0).vector) 2)) :=
  c10_ctor.2.2.2.2.2 ⟨0, 0, 0⟩ [![1, 0, 0], ![1, 0, 0]] (by norm_num)

/-- Vector round-trip for poses: the constructor from a vector inverts
`vector()`. -/
theorem ofVector_vector (p : Pose2d) : Pose2d.ofVector p.vector = p := rfl

/-- Vector round-trip for points. -/
theorem pointOfVector_vector (p : Point2d) : Point2d.ofVector p.vector = p := rfl

/-- Composing with the identity pose only normalizes the angle. -/
theorem oplus_id_right (d : Pose2d) : d.oplus ⟨0, 0, 0⟩ = ⟨d.x, d.y, standardRad d.t⟩ := by
  simp [Pose2d.oplus]

/-- When pose2's value is the identity pose, the anchored initialization value
`measure.ominus(pose2.ominus(anchor1.oplus(pose1)))` makes the composed
prediction `(anchor2 ⊕ pose2) ⊖ (anchor1 ⊕ pose1)` reproduce the measurement
exactly: the whole `basic_error` residual vanishes. -/
theorem anchored_exact_of_id (m a b1 : Pose2d) :
    ppBasicError m [a.vector, (Pose2d.mk 0 0 0).vector, b1.vector,
      (m.ominus ((Pose2d.mk 0 0 0).ominus (b1.oplus a))).vector] = 0 := by
  have hrw : ppBasicError m [a.vector, (Pose2d.mk 0 0 0).vector, b1.vector,
      (m.ominus ((Pose2d.mk 0 0 0).ominus (b1.oplus a))).vector] =
    Function.update
      ((((m.ominus ((Pose2d.mk 0 0 0).ominus (b1.oplus a))).oplus
          (Pose2d.mk 0 0 0)).ominus (b1.oplus a)).vector - m.vector) 2
      (standardRad (((((m.ominus ((Pose2d.mk 0 0 0).ominus (b1.oplus a))).oplus
          (Pose2d.mk 0 0 0)).ominus (b1.oplus a)).vector - m.vector) 2)) := rfl
  rw [hrw, oplus_id_right (m.ominus ((Pose2d.mk 0 0 0).ominus (b1.oplus a)))]
  funext i
  fin_cases i
  · simp [Pose2d.ominus, Pose2d.vector, Function.update_apply,
      cos_standardRad, sin_standardRad, Real.cos_neg, Real.sin_neg, standardRad_standardRad]
    linear_combination (m.x + cos (b1.oplus a).t * (b1.oplus a).x +
      sin (b1.oplus a).t * (b1.oplus a).y) * Real.sin_sq_add_cos_sq (b1.oplus a).t
  · simp [Pose2d.ominus, Pose2d.vector, Function.update_apply,
      cos_standardRad, sin_standardRad, Real.cos_neg, Real.sin_neg, standardRad_standardRad]
    linear_combination (m.y - sin (b1.oplus a).t * (b1.oplus a).x +
      cos (b1.oplus a).t * (b1.oplus a).y) * Real.sin_sq_add_cos_sq (b1.oplus a).t
  · simp [Pose2d.ominus, Pose2d.vector, Function.update_apply,
      cos_standardRad, sin_standardRad, Real.cos_neg, Real.sin_neg, standardRad_standardRad]
    obtain ⟨k1, h1⟩ := standardRad_sub (-(b1.oplus a).t)
    obtain ⟨k2, h2⟩ := standardRad_sub (m.t - standardRad (-(b1.oplus a).t))
    obtain ⟨k3, h3⟩ :=
      standardRad_sub (standardRad (m.t - standardRad (-(b1.oplus a).t)) - (b1.oplus a).t)
    apply standardRad_eq_zero _ (k1 - k2 - k3)
    rw [h3, h2, h1]
    push_cast
    ring

/-- C2 counterexample: with pose1 = (0,0,0), pose2 = (1,0,0), anchor1 = (0,0,0)
initialized, anchor2 uninitialized and measurement (0,0,π/2), `initialize`
assigns anchor2 = (−1,0,π/2), but the first component of `basic_error` at the
post-initialization values is −1, not 0: the composed prediction does not
equal the measurement. -/
theorem c2_counterexample :
    (ppInit ⟨0, 0, π / 2⟩ true (some ⟨0, 0, 0⟩) (some ⟨1, 0, 0⟩) (some ⟨0, 0, 0⟩)
        none).2.2.2.2 = some ⟨-1, 0, π / 2⟩ ∧
    ppBasicError ⟨0, 0, π / 2⟩ [(Pose2d.mk 0 0 0).vector, (Pose2d.mk 1 0 0).vector,
      (Pose2d.mk 0 0 0).vector, (Pose2d.mk (-1) 0 (π / 2)).vector] 0 = -1 ∧
    (-1 : ℝ) ≠ 0 := by
  have hpi2 : standardRad (π / 2) = π / 2 :=
    standardRad_eq_self (by linarith [pi_pos]) (by linarith [pi_pos])
  refine ⟨?_, ?_, by norm_num⟩
  · simp [ppInit, Pose2d.oplus, Pose2d.ominus, standardRad_zero, hpi2]
  · have hrw : ppBasicError ⟨0, 0, π / 2⟩ [(Pose2d.mk 0 0 0).vector,
        (Pose2d.mk 1 0 0).vector, (Pose2d.mk 0 0 0).vector,
        (Pose2d.mk (-1) 0 (π / 2)).vector] 0 =
      ((((Pose2d.mk (-1) 0 (π / 2)).oplus (Pose2d.mk 1 0 0)).ominus
        ((Pose2d.mk 0 0 0).oplus (Pose2d.mk 0 0 0))).vector -
          (Pose2d.mk 0 0 (π / 2)).vector) 0 := rfl
    rw [hrw]
    simp [Pose2d.oplus, Pose2d.ominus, Pose2d.vector, standardRad_zero, cos_standardRad,
      sin_standardRad]

/-- C2 (amended): the anchored `initialize` assigns anchor2 the value
`measure.ominus(pose2.ominus(anchor1.oplus(pose1)))`; when pose2's value is
the identity pose (0,0,0), that assignment makes the composed prediction
`(anchor2 ⊕ pose2) ⊖ (anchor1 ⊕ pose1)` equal the measurement exactly, i.e.
`basic_error` at the post-initialization values is zero (for general pose2 the
residual need not vanish). -/
theorem c2_amended :
    (∀ (m a b b1 : Pose2d),
      ppInit m true (some a) (some b) (some b1) none =
        (none, (some a, some b, some b1,
          some (m.ominus (b.ominus (b1.oplus a)))))) ∧
    (∀ (m a b1 : Pose2d),
      ppBasicError m [a.vector, (Pose2d.mk 0 0 0).vector, b1.vector,
        (m.ominus ((Pose2d.mk 0 0 0).ominus (b1.oplus a))).vector] = 0) :=
  ⟨fun _ _ _ _ => rfl, anchored_exact_of_id⟩

/-- C4 counterexample: at a linearization point whose angular residual sits
exactly on the ±π wrap boundary (prior heading 0, estimate heading π), the
residual map `Pose2d_Factor::basic_error` has no partial-derivative block at
all — its angular component is discontinuous there — so the per-node term of
the symbolic Jacobian is not "the" partial derivative at that point. -/
theorem c4_counterexample :
    ¬ ∃ D : Matrix (Fin 3) (Fin 3) ℝ,
        HasPartials (pfBasicError ⟨0, 0, 0⟩) D ![0, 0, π] := by
  rintro ⟨D, hD⟩
  have h := (hD 2 2).continuousAt
  have heq : (fun s => pfBasicError ⟨0, 0, 0⟩ (Function.update ![0, 0, π] 2 s) 2) =
      standardRad := by
    funext s
    simp [pfBasicError, Pose2d.vector, Function.update_apply, Matrix.vecHead, Matrix.vecTail,
      Function.comp]
  rw [heq] at h
  have hpt : (![0, 0, π] : Fin 3 → ℝ) 2 = π := by simp
  rw [hpt] at h
  exact standardRad_not_continuousAt_pi h

/-- C4 (amended): for the three factors with symbolic Jacobians, the residual
is `sqrtinf ⬝ basic_error` at the linearization-point vectors, and each
per-node term is `sqrtinf` times the partial-derivative block of `basic_error`
with respect to that node — at every linearization point whose angular
residuals are away from the ±π wrap boundary (for `Pose2d_Point2d_Factor`
there is no angular residual and no boundary condition). -/
theorem c4_amended :
    (∀ (S : Matrix (Fin 3) (Fin 3) ℝ) (prior : Pose2d) (v0 : Fin 3 → ℝ),
      (pfJacobian S prior v0).1 = S.mulVec (pfBasicError prior v0) ∧
      (pfJacobian S prior v0).2 = S * (1 : Matrix (Fin 3) (Fin 3) ℝ) ∧
      ((∀ k : ℤ, v0 2 - prior.t ≠ π + 2 * π * k) →
        HasPartials (pfBasicError prior) (1 : Matrix (Fin 3) (Fin 3) ℝ) v0)) ∧
    (∀ (S : Matrix (Fin 3) (Fin 3) ℝ) (m : Pose2d) (v1 v2 : Fin 3 → ℝ),
      (ppJacobian S m (Pose2d.ofVector v1) (Pose2d.ofVector v2)).1 =
        S.mulVec (ppBasicError m [v1, v2]) ∧
      (ppJacobian S m (Pose2d.ofVector v1) (Pose2d.ofVector v2)).2.1 =
        S * ppD1 (Pose2d.ofVector v1) (Pose2d.ofVector v2) ∧
      (ppJacobian S m (Pose2d.ofVector v1) (Pose2d.ofVector v2)).2.2 =
        S * ppD2 (Pose2d.ofVector v1) ∧
      ((∀ k : ℤ, v2 2 - v1 2 ≠ π + 2 * π * k) →
        (∀ k : ℤ, standardRad (v2 2 - v1 2) - m.t ≠ π + 2 * π * k) →
          HasPartials (fun u => ppBasicError m [u, v2])
              (ppD1 (Pose2d.ofVector v1) (Pose2d.ofVector v2)) v1 ∧
            HasPartials (fun u => ppBasicError m [v1, u]) (ppD2 (Pose2d.ofVector v1)) v2)) ∧
    (∀ (S : Matrix (Fin 2) (Fin 2) ℝ) (m : Point2d) (v0 : Fin 3 → ℝ) (w : Fin 2 → ℝ),
      (ptJacobian S m (Pose2d.ofVector v0) (Point2d.ofVector w)).1 =
        S.mulVec (ptBasicError m v0 w) ∧
      (ptJacobian S m (Pose2d.ofVector v0) (Point2d.ofVector w)).2.1 =
        S * ptD1 (Pose2d.ofVector v0) (Point2d.ofVector w) ∧
      (ptJacobian S m (Pose2d.ofVector v0) (Point2d.ofVector w)).2.2 =
        S * ptD2 (Pose2d.ofVector v0) ∧
      HasPartials (fun u => ptBasicError m u w)
        (ptD1 (Pose2d.ofVector v0) (Point2d.ofVector w)) v0 ∧
      HasPartials (fun u => ptBasicError m v0 u) (ptD2 (Pose2d.ofVector v0)) w) := by
  refine ⟨fun S prior v0 => ⟨rfl, (Matrix.mul_one S).symm, pf_partials prior v0⟩,
    fun S m v1 v2 => ⟨rfl, rfl, rfl, fun hin hout =>
      ⟨pp1_partials m v1 v2 hin hout, pp2_partials m v1 v2 hin hout⟩⟩,
    fun S m v0 w => ⟨rfl, rfl, rfl, pt1_partials m v0 w, pt2_partials m v0 w⟩⟩

/-- C4 witness: the amended theorem at the all-zero linearization point, with
the wrap-boundary hypotheses discharged. -/
theorem c4_amended_witness :
    HasPartials (pfBasicError ⟨0, 0, 0⟩) (1 : Matrix (Fin 3) (Fin 3) ℝ) ![0, 0, 0] ∧
    HasPartials (fun u => ppBasicError ⟨0, 0, 0⟩ [u, ![0, 0, 0]])
      (ppD1 (Pose2d.ofVector ![0, 0, 0]) (Pose2d.ofVector ![0, 0, 0])) ![0, 0, 0] := by
  constructor
  · exact (c4_amended.1 1 ⟨0, 0, 0⟩ ![0, 0, 0]).2.2
      (fun k => by simpa using zero_ne_pi_mod k)
  · exact ((c4_amended.2.1 1 ⟨0, 0, 0⟩ ![0, 0, 0] ![0, 0, 0]).2.2.2
      (fun k => by simpa using zero_ne_pi_mod k)
      (fun k => by simpa [standardRad_zero] using zero_ne_pi_mod k)).1

/-- C5 counterexample: at a linearization point whose angular residual sits
exactly on the wrap boundary, the finite-difference quotients of
`Pose2d_Factor::basic_error` do not match the symbolic derivative block within
small tolerances — the angular component jumps by 2π there. -/
theorem c5_counterexample :
    ¬ FDClose (pfBasicError ⟨0, 0, 0⟩) (1 : Matrix (Fin 3) (Fin 3) ℝ) ![0, 0, π] := by
  intro h
  have ht : Tendsto (fun u : ℝ =>
      (pfBasicError ⟨0, 0, 0⟩ (Function.update ![0, 0, π] 2 ((![0, 0, π] : Fin 3 → ℝ) 2 + u)) 2 -
        pfBasicError ⟨0, 0, 0⟩ ![0, 0, π] 2) / u) (𝓝[≠] (0 : ℝ))
      (𝓝 ((1 : Matrix (Fin 3) (Fin 3) ℝ) 2 2)) := by
    rw [Metric.tendsto_nhds]
    intro tol htol
    filter_upwards [h tol htol 2 2] with u hu
    rwa [Real.dist_eq]
  have hd : HasDerivAt
      (fun s => pfBasicError ⟨0, 0, 0⟩ (Function.update ![0, 0, π] 2 s) 2)
      ((1 : Matrix (Fin 3) (Fin 3) ℝ) 2 2) ((![0, 0, π] : Fin 3 → ℝ) 2) := by
    rw [hasDerivAt_iff_tendsto_slope_zero]
    refine ht.congr fun u => ?_
    have hupd : Function.update (![0, 0, π] : Fin 3 → ℝ) 2 π = ![0, 0, π] := by
      funext i
      rw [Function.update_apply]
      split
      · rename_i hi
        subst hi
        simp
      · rfl
    simp [Function.update_eq_self, hupd, smul_eq_mul, div_eq_inv_mul]
  have h2 := hd.continuousAt
  have heq : (fun s => pfBasicError ⟨0, 0, 0⟩ (Function.update ![0, 0, π] 2 s) 2) =
      standardRad := by
    funext s
    simp [pfBasicError, Pose2d.vector, Function.update_apply, Matrix.vecHead, Matrix.vecTail,
      Function.comp]
  rw [heq] at h2
  have hpt : (![0, 0, π] : Fin 3 → ℝ) 2 = π := by simp
  rw [hpt] at h2
  exact standardRad_not_continuousAt_pi h2

/-- C5 (amended): for every factor kind with a symbolic Jacobian, the
closed-form per-node blocks match the finite-difference quotients of
`basic_error` (the spec's numerical-differentiation fallback) within any
positive tolerance for all sufficiently small perturbations — at every
linearization point whose angular residuals are away from the ±π wrap
boundary. -/
theorem c5_amended :
    (∀ (S : Matrix (Fin 3) (Fin 3) ℝ) (prior : Pose2d) (v0 : Fin 3 → ℝ),
      (pfJacobian S prior v0).2 = S * (1 : Matrix (Fin 3) (Fin 3) ℝ) ∧
      ((∀ k : ℤ, v0 2 - prior.t ≠ π + 2 * π * k) →
        FDClose (pfBasicError prior) (1 : Matrix (Fin 3) (Fin 3) ℝ) v0)) ∧
    (∀ (S : Matrix (Fin 3) (Fin 3) ℝ) (m : Pose2d) (v1 v2 : Fin 3 → ℝ),
      (ppJacobian S m (Pose2d.ofVector v1) (Pose2d.ofVector v2)).2.1 =
        S * ppD1 (Pose2d.ofVector v1) (Pose2d.ofVector v2) ∧
      (ppJacobian S m (Pose2d.ofVector v1) (Pose2d.ofVector v2)).2.2 =
        S * ppD2 (Pose2d.ofVector v1) ∧
      ((∀ k : ℤ, v2 2 - v1 2 ≠ π + 2 * π * k) →
        (∀ k : ℤ, standardRad (v2 2 - v1 2) - m.t ≠ π + 2 * π * k) →
          FDClose (fun u => ppBasicError m [u, v2])
              (ppD1 (Pose2d.ofVector v1) (Pose2d.ofVector v2)) v1 ∧
            FDClose (fun u => ppBasicError m [v1, u]) (ppD2 (Pose2d.ofVector v1)) v2)) ∧
    (∀ (S : Matrix (Fin 2) (Fin 2) ℝ) (m : Point2d) (v0 : Fin 3 → ℝ) (w : Fin 2 → ℝ),
      (ptJacobian S m (Pose2d.ofVector v0) (Point2d.ofVector w)).2.1 =
        S * ptD1 (Pose2d.ofVector v0) (Point2d.ofVector w) ∧
      (ptJacobian S m (Pose2d.ofVector v0) (Point2d.ofVector w)).2.2 =
        S * ptD2 (Pose2d.ofVector v0) ∧
      FDClose (fun u => ptBasicError m u w)
        (ptD1 (Pose2d.ofVector v0) (Point2d.ofVector w)) v0 ∧
      FDClose (fun u => ptBasicError m v0 u) (ptD2 (Pose2d.ofVector v0)) w) := by
  refine ⟨fun S prior v0 => ⟨(Matrix.mul_one S).symm, fun hw =>
      fdClose_of_hasPartials (pf_partials prior v0 hw)⟩,
    fun S m v1 v2 => ⟨rfl, rfl, fun hin hout =>
      ⟨fdClose_of_hasPartials (pp1_partials m v1 v2 hin hout),
       fdClose_of_hasPartials (pp2_partials m v1 v2 hin hout)⟩⟩,
    fun S m v0 w => ⟨rfl, rfl, fdClose_of_hasPartials (pt1_partials m v0 w),
      fdClose_of_hasPartials (pt2_partials m v0 w)⟩⟩

/-- C5 witness: the amended theorem at the all-zero linearization point, with
the wrap-boundary hypotheses discharged. -/
theorem c5_amended_witness :
    FDClose (pfBasicError ⟨0, 0, 0⟩) (1 : Matrix (Fin 3) (Fin 3) ℝ) ![0, 0, 0] ∧
    FDClose (fun u => ppBasicError ⟨0, 0, 0⟩ [![0, 0, 0], u])
      (ppD2 (Pose2d.ofVector ![0, 0, 0])) ![0, 0, 0] := by
  constructor
  · exact (c5_amended.1 1 ⟨0, 0, 0⟩ ![0, 0, 0]).2
      (fun k => by simpa using zero_ne_pi_mod k)
  · exact ((c5_amended.2.1 1 ⟨0, 0, 0⟩ ![0, 0, 0] ![0, 0, 0]).2.2
      (fun k => by simpa using zero_ne_pi_mod k)
      (fun k => by simpa [standardRad_zero] using zero_ne_pi_mod k)).2

/-! ## Serialization -/

/-- `joinComma` splits as first element plus comma-prefixed tail. -/
theorem joinComma_cons (e : String) (l : List String) :
    joinComma (e :: l) = e ++ commaTail l := by
  induction l generalizing e with
  | nil => simp [joinComma, commaTail]
  | cons f l ih => simp [joinComma, commaTail, ih, String.append_assoc]

/-- The `first`-flag fold of `sqrtinf_to_string`, once past the first element,
appends each further element preceded by a comma. -/
theorem foldl_comma_false (l : List String) (u : String) :
    (List.foldl (fun (a : String × Bool) e => (a.1 ++ (if a.2 then e else "," ++ e), false))
      (u, false) l).1 = u ++ commaTail l := by
  induction l generalizing u with
  | nil => simp [commaTail]
  | cons e l ih => simp [ih, commaTail, String.append_assoc]

/-- The `first`-flag fold starting fresh produces the comma-separated join. -/
theorem foldl_comma_true (l : List String) (u : String) :
    (List.foldl (fun (a : String × Bool) e => (a.1 ++ (if a.2 then e else "," ++ e), false))
      (u, true) l).1 = u ++ joinComma l := by
  cases l with
  | nil => simp [joinComma]
  | cons e l =>
    simp only [List.foldl_cons, if_true]
    rw [foldl_comma_false, joinComma_cons, String.append_assoc]

/-- On a square matrix, `sqrtinf_to_string` produces exactly the braced
comma-separated join of the flattened upper-triangular entry list. -/
theorem sqrtinfToString_ok (fmt : ℝ → String) (n : ℕ) (ent : ℕ → ℕ → ℝ) :
    sqrtinfToString fmt n n ent =
      .ok ("\x7b" ++ joinComma (utList n n fun r c => fmt (ent r c)) ++ "\x7d") := by
  rw [sqrtinfToString, if_pos rfl, foldl_comma_true]

/-- The inner loop range `[r, nc)` of `sqrtinf_to_string` is the filter of the
full column range by `r ≤ c`. -/
theorem filter_range_eq_range' (nc r : ℕ) :
    (List.range nc).filter (fun c => r ≤ c) = List.range' r (nc - r) := by
  induction nc with
  | zero => simp
  | succ n ih =>
    rw [List.range_succ, List.filter_append, ih]
    by_cases h : r ≤ n
    · have h1 : n + 1 - r = (n - r) + 1 := by omega
      have h2 : r + (n - r) = n := by omega
      simp [h, h1, List.range'_concat, h2]
    · have h1 : n + 1 - r = 0 := by omega
      have h2 : n - r = 0 := by omega
      simp [h, h1, h2]

/-- The traversal of `sqrtinf_to_string` is exactly the entries `(r, c)` with
`c ≥ r`, row-major. -/
theorem utList_eq_filter (nr nc : ℕ) (ent : ℕ → ℕ → String) :
    utList nr nc ent =
      (List.range nr).flatMap fun r =>
        ((List.range nc).filter fun c => r ≤ c).map (ent r) := by
  simp [utList, filter_range_eq_range']

/-- For the 3×3 case the flattened upper-triangular list is the six entries
`(0,0), (0,1), (0,2), (1,1), (1,2), (2,2)` in order. -/
theorem utList_three (ent : ℕ → ℕ → String) :
    utList 3 3 ent = [ent 0 0, ent 0 1, ent 0 2, ent 1 1, ent 1 2, ent 2 2] := by
  rfl

/-- C9: each 2D factor's `write()` serializes exactly the factor type name,
the measurement node identifiers, the measurement/prior fields, and the
square-root-information matrix as a braced comma-separated flattened
upper-triangular list (entries `(r,c)` for `c ≥ r`, row-major), with the two
anchor node identifiers appended if and only if the factor has four nodes;
`sqrtinf_to_string` fails with an error on a non-square matrix. -/
theorem c9_write (fmt : ℝ → String) (ent : ℕ → ℕ → ℝ) :
    (∀ nr nc : ℕ, nr ≠ nc → sqrtinfToString fmt nr nc ent = .error SlamError.nonSquare) ∧
    (∀ n : ℕ, sqrtinfToString fmt n n ent =
      .ok ("\x7b" ++ joinComma (utList n n fun r c => fmt (ent r c)) ++ "\x7d")) ∧
    (∀ (nr nc : ℕ) (g : ℕ → ℕ → String),
      utList nr nc g =
        (List.range nr).flatMap fun r =>
          ((List.range nc).filter fun c => r ≤ c).map (g r)) ∧
    (∀ g : ℕ → ℕ → String,
      utList 3 3 g = [g 0 0, g 0 1, g 0 2, g 1 1, g 1 2, g 2 2]) ∧
    (∀ (i j : ℕ) (m : Pose2d),
      ppWrite fmt [i, j] m ent =
        .ok (writeBase "Pose2d_Pose2d_Factor" [i, j] ++ " " ++ poseFields fmt m ++ " " ++
          ("\x7b" ++ joinComma (utList 3 3 fun r c => fmt (ent r c)) ++ "\x7d"))) ∧
    (∀ (i j k l : ℕ) (m : Pose2d),
      ppWrite fmt [i, j, k, l] m ent =
        .ok (writeBase "Pose2d_Pose2d_Factor" [i, j] ++ " " ++ poseFields fmt m ++ " " ++
          ("\x7b" ++ joinComma (utList 3 3 fun r c => fmt (ent r c)) ++ "\x7d") ++
          (" " ++ toString k ++ " " ++ toString l))) ∧
    (∀ (i : ℕ) (prior : Pose2d),
      pfWrite fmt i prior ent =
        .ok (writeBase "Pose2d_Factor" [i] ++ " " ++ poseFields fmt prior ++ " " ++
          ("\x7b" ++ joinComma (utList 3 3 fun r c => fmt (ent r c)) ++ "\x7d"))) ∧
    (∀ (i : ℕ) (prior : Point2d),
      pointPriorWrite fmt i prior ent =
        .ok (writeBase "Point2d_Factor" [i] ++ " " ++ pointFields fmt prior ++ " " ++
          ("\x7b" ++ joinComma (utList 2 2 fun r c => fmt (ent r c)) ++ "\x7d"))) ∧
    (∀ (i j : ℕ) (m : Point2d),
      ptWrite fmt i j m ent =
        .ok (writeBase "Pose2d_Point2d_Factor" [i, j] ++ " " ++ pointFields fmt m ++ " " ++
          ("\x7b" ++ joinComma (utList 2 2 fun r c => fmt (ent r c)) ++ "\x7d"))) := by
  refine ⟨fun nr nc h => ?_, fun n => sqrtinfToString_ok fmt n ent, utList_eq_filter, utList_three,
    fun i j m => ?_, fun i j k l m => ?_, fun i prior => ?_, fun i prior => ?_,
    fun i j m => ?_⟩
  · simp [sqrtinfToString, h]
  · simp [ppWrite, sqrtinfToString_ok, Except.map, String.append_assoc]
  · simp [ppWrite, sqrtinfToString_ok, Except.map, String.append_assoc]
  · simp [pfWrite, sqrtinfToString_ok, Except.map, String.append_assoc]
  · simp [pointPriorWrite, sqrtinfToString_ok, Except.map, String.append_assoc]
  · simp [ptWrite, sqrtinfToString_ok, Except.map, String.append_assoc]

/-- C9 witness: `sqrtinf_to_string` on a concrete 2×3 (non-square) matrix
fails with the squareness error. -/
theorem c9_write_witness :
    sqrtinfToString (fun _ => "0") 2 3 (fun _ _ => 0) = .error SlamError.nonSquare :=
  (c9_write (fun _ => "0") (fun _ _ => 0)).1 2 3 (by norm_num)

end Isam
